import Mathlib

set_option linter.deprecated false

/-!
Shallow embedding of the text analysis engine of `sentiment_analyzer.py`
(class `SentimentAnalyzer`).  Strings are modelled as `List Char`; Python
floats are modelled as exact rationals (`ℚ`) with Python's `round`
(half-to-even) made explicit; the TextBlob scorer is an external
collaborator (spec §4.2) and is passed in as a parameter.  The character
classes of the regexes (`\S`, `\w`) and of `str.split()` / `str.strip()`
follow their ASCII semantics.
-/

namespace SentimentAnalyzer

/-- The whitespace set of Python's `str.split()` / `str.strip()` and the
complement of the regex class `\S` (ASCII part): space, tab, newline,
carriage return, vertical tab, form feed. -/
def pyIsSpace (c : Char) : Bool :=
  c == ' ' || c == '\t' || c == '\n' || c == '\r' ||
  c == Char.ofNat 11 || c == Char.ofNat 12

/-- The regex class `\w` (ASCII part): letters, digits, underscore. -/
def isWordChar (c : Char) : Bool :=
  c.isAlphanum || c == '_'

/-- Is an optional character present and not whitespace (`\S`)? -/
def nsOpt : Option Char → Bool
  | some c => !pyIsSpace c
  | none => false

/-- Is an optional character present and a word character (`\w`)? -/
def wdOpt : Option Char → Bool
  | some c => isWordChar c
  | none => false

/-- Length of the leading run of non-whitespace characters (what a greedy
`\S+` consumes once its first character matched). -/
def nonspaceTake (l : List Char) : Nat :=
  (l.takeWhile fun c => !pyIsSpace c).length

/-- Length of the leading run of word characters (what a greedy `\w+`
consumes). -/
def wordTake (l : List Char) : Nat :=
  (l.takeWhile isWordChar).length

/-- `http\S+` matches at the head of `l`: the four literal characters and
at least one following non-whitespace character.  (`https\S+` is subsumed:
its matches are matches of `http\S+`.) -/
def uCond (l : List Char) : Prop :=
  l.get? 0 = some 'h' ∧ l.get? 1 = some 't' ∧ l.get? 2 = some 't' ∧
  l.get? 3 = some 'p' ∧ nsOpt (l.get? 4) = true

/-- `www\S+` matches at the head of `l`. -/
def wCond (l : List Char) : Prop :=
  l.get? 0 = some 'w' ∧ l.get? 1 = some 'w' ∧ l.get? 2 = some 'w' ∧
  nsOpt (l.get? 3) = true

instance (l : List Char) : Decidable (uCond l) := by unfold uCond; infer_instance
instance (l : List Char) : Decidable (wCond l) := by unfold wCond; infer_instance

/-- Length of the match of `http\S+|www\S+|https\S+` at the head of `l`,
if any (`re.sub` tries the alternatives left to right; `\S+` is greedy and
nothing follows it, so it consumes the whole non-whitespace run). -/
def urlMatchLen (l : List Char) : Option Nat :=
  if uCond l then some (4 + nonspaceTake (l.drop 4))
  else if wCond l then some (3 + nonspaceTake (l.drop 3))
  else none

/-- `@\w+` matches at the head of `l`: an `@` followed by at least one
word character. -/
def mCond (l : List Char) : Prop :=
  l.get? 0 = some '@' ∧ wdOpt (l.get? 1) = true

instance (l : List Char) : Decidable (mCond l) := by unfold mCond; infer_instance

/-- Length of the match of `@\w+` at the head of `l`, if any. -/
def mentionMatchLen (l : List Char) : Option Nat :=
  if mCond l then some (1 + wordTake (l.drop 1)) else none

/-- The head of `r`, when present, is whitespace. -/
def headSpace (r : List Char) : Prop :=
  ∀ c, r.get? 0 = some c → pyIsSpace c = true

/-- The head of `r`, when present, is not a word character. -/
def headNonword (r : List Char) : Prop :=
  ∀ c, r.get? 0 = some c → isWordChar c = false

/-- No occurrence of `http\S+|www\S+|https\S+` anywhere in `s`. -/
def NoU (s : List Char) : Prop :=
  ∀ n, ¬uCond (s.drop n) ∧ ¬wCond (s.drop n)

/-- No occurrence of `@\w+` anywhere in `s`. -/
def NoM (s : List Char) : Prop :=
  ∀ n, ¬mCond (s.drop n)

/-- Fuelled scan of `re.sub(r'http\S+|www\S+|https\S+', '', text)`: at each
position, if the pattern matches there the match is deleted and scanning
resumes after it; otherwise the character is kept.  One unit of fuel is
spent per step and every step consumes at least one character, so
`l.length` fuel always suffices. -/
def subUF : Nat → List Char → List Char
  | 0, l => l
  | _ + 1, [] => []
  | f + 1, c :: cs =>
    match urlMatchLen (c :: cs) with
    | some n => subUF f ((c :: cs).drop n)
    | none => c :: subUF f cs

/-- `re.sub(r'http\S+|www\S+|https\S+', '', text)` (URL removal). -/
def subU (l : List Char) : List Char := subUF l.length l

/-- Fuelled scan of `re.sub(r'@\w+', '', text)`. -/
def subMF : Nat → List Char → List Char
  | 0, l => l
  | _ + 1, [] => []
  | f + 1, c :: cs =>
    match mentionMatchLen (c :: cs) with
    | some n => subMF f ((c :: cs).drop n)
    | none => c :: subMF f cs

/-- `re.sub(r'@\w+', '', text)` (mention removal). -/
def subM (l : List Char) : List Char := subMF l.length l

/-- `re.sub(r'#', '', text)`: drop every `#` character. -/
def stripHash (l : List Char) : List Char := l.filter fun c => c != '#'

/-- Fuelled `str.split()`: maximal non-whitespace runs, in order, empty
runs discarded. -/
def pyWordsF : Nat → List Char → List (List Char)
  | 0, _ => []
  | _ + 1, [] => []
  | f + 1, c :: cs =>
    if pyIsSpace c then pyWordsF f cs
    else (c :: cs.takeWhile fun d => !pyIsSpace d) ::
      pyWordsF f (cs.dropWhile fun d => !pyIsSpace d)

/-- Python `text.split()` (no argument: split on whitespace runs). -/
def pyWords (l : List Char) : List (List Char) := pyWordsF l.length l

/-- `' '.join(ws)`. -/
def unwords : List (List Char) → List Char
  | [] => []
  | [w] => w
  | w :: ws => w ++ ' ' :: unwords ws

/-- `' '.join(text.split())`: collapse whitespace runs to single spaces and
trim the ends. -/
def collapse (l : List Char) : List Char := unwords (pyWords l)

/-- `SentimentAnalyzer.clean_text`: remove URLs, then mentions, then the
`#` characters, then collapse whitespace. -/
def clean_text (text : List Char) : List Char :=
  collapse (stripHash (subM (subU text)))

/-- Python `str.strip()`: drop leading and trailing whitespace. -/
def pyStrip (l : List Char) : List Char :=
  ((l.dropWhile pyIsSpace).reverse.dropWhile pyIsSpace).reverse

/-- The three sentiment labels. -/
inductive Sentiment where
  | Positive
  | Negative
  | Neutral
deriving DecidableEq, Repr

/-- The fixed-threshold classification of `analyze_sentiment` (lines
40–45): `> 0.1` positive, `< -0.1` negative, otherwise neutral. -/
def classify (polarity : ℚ) : Sentiment :=
  if polarity > 1/10 then Sentiment.Positive
  else if polarity < -(1/10) then Sentiment.Negative
  else Sentiment.Neutral

/-- Python's `round` to an integer: half-to-even. -/
def pyRoundInt (q : ℚ) : ℤ :=
  let f := q.floor
  if q - f < 1/2 then f
  else if 1/2 < q - f then f + 1
  else if f % 2 = 0 then f else f + 1

/-- Python's `round(q, 3)`. -/
def round3 (q : ℚ) : ℚ := (pyRoundInt (q * 1000) : ℚ) / 1000

/-- Python's `round(q, 1)`. -/
def round1 (q : ℚ) : ℚ := (pyRoundInt (q * 10) : ℚ) / 10

/-- The dict returned by `analyze_sentiment`, one per analyzed document. -/
structure Record where
  text : List Char
  cleaned_text : List Char
  sentiment : Sentiment
  polarity : ℚ
  subjectivity : ℚ
deriving DecidableEq, Repr

/-- A sentiment scorer (the TextBlob backend, external to the repository):
from a cleaned text, a polarity and a subjectivity. -/
abbrev Scorer := List Char → ℚ × ℚ

/-- `SentimentAnalyzer.analyze_sentiment`: clean, score, classify the
unrounded polarity, store the scores rounded to 3 decimals. -/
def analyze_sentiment (scorer : Scorer) (text : List Char) : Record :=
  let cleaned := clean_text text
  let pol := (scorer cleaned).1
  let subj := (scorer cleaned).2
  { text := text
    cleaned_text := cleaned
    sentiment := classify pol
    polarity := round3 pol
    subjectivity := round3 subj }

/-- The mutable state of a `SentimentAnalyzer` instance: `self.results`. -/
structure AnalyzerState where
  results : List Record
deriving DecidableEq, Repr

/-- The loop of `analyze_multiple`: texts whose `strip()` is empty are
skipped, every other text is analyzed and its record appended. -/
def amLoop (scorer : Scorer) : List (List Char) → List Record → List Record
  | [], acc => acc
  | t :: ts, acc =>
    if (pyStrip t).isEmpty then amLoop scorer ts acc
    else amLoop scorer ts (acc ++ [analyze_sentiment scorer t])

/-- `SentimentAnalyzer.analyze_multiple`: reset `self.results` to `[]`,
run the loop, return the new list (which is also the new state). -/
def analyze_multiple (scorer : Scorer) (texts : List (List Char))
    (_st : AnalyzerState) : List Record × AnalyzerState :=
  let r := amLoop scorer texts []
  (r, ⟨r⟩)

/-- The dict returned by `get_statistics`. -/
structure Stats where
  total : ℕ
  positive : ℕ
  negative : ℕ
  neutral : ℕ
  positive_pct : ℚ
  negative_pct : ℚ
  neutral_pct : ℚ
  avg_polarity : ℚ
  avg_subjectivity : ℚ
deriving DecidableEq, Repr

/-- `SentimentAnalyzer.get_statistics`: `None` on an empty result list,
otherwise counts, percentages (`round(c/total*100, 1)`) and means
(`round(sum/total, 3)`, pandas `mean` being sum over length). -/
def get_statistics (st : AnalyzerState) : Option Stats :=
  if st.results.isEmpty then none
  else
    let rs := st.results
    let total := rs.length
    let pos := rs.countP fun r => r.sentiment = Sentiment.Positive
    let neg := rs.countP fun r => r.sentiment = Sentiment.Negative
    let neu := rs.countP fun r => r.sentiment = Sentiment.Neutral
    some
      { total := total
        positive := pos
        negative := neg
        neutral := neu
        positive_pct := round1 ((pos : ℚ) / total * 100)
        negative_pct := round1 ((neg : ℚ) / total * 100)
        neutral_pct := round1 ((neu : ℚ) / total * 100)
        avg_polarity := round3 ((rs.map Record.polarity).sum / total)
        avg_subjectivity := round3 ((rs.map Record.subjectivity).sum / total) }

/-- The fixed stopword set of `get_top_words`. -/
def stopwords : List (List Char) :=
  ["the", "a", "an", "and", "or", "but", "in", "on", "at", "to", "for",
   "of", "with", "is", "was", "are", "been", "be", "have", "has", "had",
   "do", "does", "did", "will", "would", "could", "should", "may", "might",
   "i", "you", "he", "she", "it", "we", "they", "this", "that", "these",
   "those"].map String.toList

/-- `word.lower()` (ASCII). -/
def lowerW (w : List Char) : List Char := w.map Char.toLower

/-- The records `get_top_words` draws from: all of them, or those whose
sentiment matches the requested one. -/
def filteredRecords (st : AnalyzerState) (sentiment_type : Option Sentiment) :
    List Record :=
  match sentiment_type with
  | none => st.results
  | some s => st.results.filter fun r => r.sentiment = s

/-- The token list of `get_top_words`: join the cleaned texts with single
spaces, split on whitespace, keep the lower-cased tokens that are longer
than 2 characters and not stopwords. -/
def topTokens (rs : List Record) : List (List Char) :=
  let all_text := unwords (rs.map Record.cleaned_text)
  (pyWords all_text).filterMap fun w =>
    if 2 < w.length ∧ lowerW w ∉ stopwords then some (lowerW w) else none

/-- Index of the first occurrence of `w` in `ws` (the length of `ws` when
absent); used to state the first-occurrence tie-breaking order. -/
def firstIdx (ws : List (List Char)) (w : List Char) : ℕ :=
  match ws with
  | [] => 0
  | v :: vs => if v = w then 0 else firstIdx vs w + 1

/-- One step of `collections.Counter` construction: increment the count of
`w` if it is already a key, else append it with count 1 (dict insertion
order records the first occurrence). -/
def bump (w : List Char) : List (List Char × ℕ) → List (List Char × ℕ)
  | [] => [(w, 1)]
  | (v, k) :: rest => if v = w then (v, k + 1) :: rest else (v, k) :: bump w rest

/-- `collections.Counter(ws)` as an association list in insertion order. -/
def counter (ws : List (List Char)) : List (List Char × ℕ) :=
  ws.foldl (fun acc w => bump w acc) []

/-- Insert into a list sorted by descending count, after every entry with a
count ≥ the new one (the placement a stable descending sort gives an
element coming from earlier in the input). -/
def insertDesc (x : List Char × ℕ) :
    List (List Char × ℕ) → List (List Char × ℕ)
  | [] => [x]
  | y :: ys => if y.2 ≤ x.2 then x :: y :: ys else y :: insertDesc x ys

/-- Stable sort by descending count (the order `Counter.most_common`
produces: `sorted(..., reverse=True)` is stable, so equal counts keep
insertion order). -/
def sortCountDesc (l : List (List Char × ℕ)) : List (List Char × ℕ) :=
  l.foldr insertDesc []

/-- `SentimentAnalyzer.get_top_words`. -/
def get_top_words (st : AnalyzerState) (sentiment_type : Option Sentiment)
    (top_n : ℕ) : List (List Char × ℕ) :=
  if st.results.isEmpty then []
  else (sortCountDesc (counter (topTokens (filteredRecords st sentiment_type)))).take top_n

/-- `get_statistics` as a state-passing method call: the Python body never
assigns to `self.results`, so the state component is returned as received. -/
def get_statistics_m (st : AnalyzerState) : Option Stats × AnalyzerState :=
  (get_statistics st, st)

/-- `get_top_words` as a state-passing method call (no assignment to
`self.results` in the Python body). -/
def get_top_words_m (st : AnalyzerState) (sentiment_type : Option Sentiment)
    (top_n : ℕ) : List (List Char × ℕ) × AnalyzerState :=
  (get_top_words st sentiment_type top_n, st)

/-- A scorer whose backend may raise on some input (`none` = exception). -/
abbrev PartialScorer := List Char → Option (ℚ × ℚ)

/-- `analyze_sentiment` under a fallible backend: the exception propagates
(`none`); otherwise the record of `analyze_sentiment`. -/
def analyze_sentiment_f (scorer : PartialScorer) (text : List Char) :
    Option Record :=
  match scorer (clean_text text) with
  | none => none
  | some (pol, subj) =>
    some
      { text := text
        cleaned_text := clean_text text
        sentiment := classify pol
        polarity := round3 pol
        subjectivity := round3 subj }

/-- The loop of `analyze_multiple` under a fallible backend.  Returns the
function result (`none` if an exception escaped) together with the value
`self.results` holds afterwards: appends happen one by one, and an
exception leaves the list as appended so far. -/
def amLoopF (scorer : PartialScorer) :
    List (List Char) → List Record → Option (List Record) × List Record
  | [], acc => (some acc, acc)
  | t :: ts, acc =>
    if (pyStrip t).isEmpty then amLoopF scorer ts acc
    else
      match analyze_sentiment_f scorer t with
      | none => (none, acc)
      | some r => amLoopF scorer ts (acc ++ [r])

/-- `analyze_multiple` under a fallible backend: `self.results` is reset to
`[]` before the loop, so the state after a failure is the partial list, not
the previous collection. -/
def analyze_multiple_f (scorer : PartialScorer) (texts : List (List Char))
    (_st : AnalyzerState) : Option (List Record) × AnalyzerState :=
  let p := amLoopF scorer texts []
  (p.1, ⟨p.2⟩)

/-! ## Theorems -/

/-- The loop of `analyze_multiple` appends exactly one record per non-blank
text, in input order. -/
theorem amLoop_eq (scorer : Scorer) (ts : List (List Char)) (acc : List Record) :
    amLoop scorer ts acc =
      acc ++ (ts.filter fun t => !(pyStrip t).isEmpty).map (analyze_sentiment scorer) := by
  induction ts generalizing acc with
  | nil => simp [amLoop]
  | cons t ts ih =>
    by_cases h : (pyStrip t).isEmpty
    · simp [amLoop, h, ih]
    · simp [amLoop, h, ih]

/-- C1: `analyze_multiple` returns one record (built by `analyze_sentiment`)
per input text that is non-blank after stripping, in input order; its
length is the count of non-blank inputs; the result is stored as the whole
new state, and the outcome is independent of the previously stored
collection (replacement, not accumulation). -/
theorem analyze_multiple_records_nonblank_in_order_replaces
    (scorer : Scorer) (texts : List (List Char)) (st st' : AnalyzerState) :
    (analyze_multiple scorer texts st).1 =
      (texts.filter fun t => !(pyStrip t).isEmpty).map (analyze_sentiment scorer) ∧
    (analyze_multiple scorer texts st).1.length =
      texts.countP (fun t => !(pyStrip t).isEmpty) ∧
    (analyze_multiple scorer texts st).2.results =
      (analyze_multiple scorer texts st).1 ∧
    analyze_multiple scorer texts st = analyze_multiple scorer texts st' := by
  refine ⟨?_, ?_, rfl, rfl⟩
  · simpa [analyze_multiple] using amLoop_eq scorer texts []
  · simp [analyze_multiple, amLoop_eq, List.countP_eq_length_filter]

/-- C1 witness: a concrete batch with a blank entry. -/
theorem analyze_multiple_records_witness :
    (analyze_multiple (fun _ => (0, 0)) ["good".toList, "  ".toList, "bad".toList] ⟨[]⟩).1.length = 2 := by
  rw [(analyze_multiple_records_nonblank_in_order_replaces
    (fun _ => (0, 0)) ["good".toList, "  ".toList, "bad".toList] ⟨[]⟩ ⟨[]⟩).2.1]
  decide

/-- C2: the classifier returns Positive above 0.1, Negative below -0.1 and
Neutral in between, the boundaries 0.1 and -0.1 included in Neutral; in
particular at 0.5, -0.5, 0.05, 0.1 and -0.1. -/
theorem classify_thresholds :
    (∀ p : ℚ, 1/10 < p → classify p = Sentiment.Positive) ∧
    (∀ p : ℚ, p < -(1/10) → classify p = Sentiment.Negative) ∧
    (∀ p : ℚ, -(1/10) ≤ p → p ≤ 1/10 → classify p = Sentiment.Neutral) ∧
    classify (1/2) = Sentiment.Positive ∧
    classify (-(1/2)) = Sentiment.Negative ∧
    classify (1/20) = Sentiment.Neutral ∧
    classify (1/10) = Sentiment.Neutral ∧
    classify (-(1/10)) = Sentiment.Neutral := by
  refine ⟨?_, ?_, ?_, by norm_num [classify], by norm_num [classify],
    by norm_num [classify], by norm_num [classify], by norm_num [classify]⟩
  · intro p h
    unfold classify
    rw [if_pos h]
  · intro p h
    unfold classify
    rw [if_neg (by linarith), if_pos h]
  · intro p h1 h2
    unfold classify
    rw [if_neg (by linarith), if_neg (by linarith)]

/-- C2 witness: the three threshold clauses at concrete polarities. -/
theorem classify_thresholds_witness :
    classify (3/10) = Sentiment.Positive ∧
    classify (-(3/10)) = Sentiment.Negative ∧
    classify 0 = Sentiment.Neutral :=
  ⟨classify_thresholds.1 (3/10) (by norm_num),
   classify_thresholds.2.1 (-(3/10)) (by norm_num),
   classify_thresholds.2.2.1 0 (by norm_num) (by norm_num)⟩

/-- C9: on `"Check http://x.co @bob #great"` the cleaner removes the URL
token and the whole mention, keeps `great` without its `#`, and collapses
the whitespace. -/
theorem clean_text_example :
    clean_text ("Check http://x.co @bob #great".toList) = "Check great".toList := by
  decide

/-- C6: `get_statistics` returns `none` exactly on the empty collection,
and a statistics value on any non-empty one. -/
theorem get_statistics_absent_iff (st : AnalyzerState) :
    (st.results = [] → get_statistics st = none) ∧
    (st.results ≠ [] → ∃ s, get_statistics st = some s) := by
  constructor
  · intro h
    simp [get_statistics, h]
  · intro h
    unfold get_statistics
    rw [if_neg (by simpa [List.isEmpty_iff] using h)]
    exact ⟨_, rfl⟩

/-- C6 witness: empty and singleton collections. -/
theorem get_statistics_absent_iff_witness :
    get_statistics ⟨[]⟩ = none ∧
    ∃ s, get_statistics ⟨[⟨"ok".toList, "ok".toList, Sentiment.Neutral, 0, 0⟩]⟩ = some s :=
  ⟨(get_statistics_absent_iff ⟨[]⟩).1 rfl,
   (get_statistics_absent_iff _).2 (by simp)⟩

/-- C4 counterexample: under a range-respecting scorer returning polarity
0.1004, the stored record has sentiment Positive (0.1004 > 0.1) while its
stored polarity field is `round(0.1004, 3) = 0.1`, which the classifier
maps to Neutral: sentiment is not a function of the stored polarity. -/
theorem sentiment_vs_stored_polarity_cex :
    ((analyze_multiple (fun _ => (1004/10000, 0)) ["good".toList] ⟨[]⟩).1.map
      fun r => (r.sentiment, classify r.polarity)) =
      [(Sentiment.Positive, Sentiment.Neutral)] := by
  have h1 : ¬(pyStrip ['g', 'o', 'o', 'd'] = []) := by decide
  have h2 : round3 (1004/10000) = 1/10 := by
    norm_num [round3, pyRoundInt, Rat.floor_def']
  have h3 : classify (1004/10000) = Sentiment.Positive := by norm_num [classify]
  simp [analyze_multiple, amLoop, h1, analyze_sentiment, h2, h3]
  norm_num [classify]

/-- C4 amended: for every record stored by `analyze_multiple`, the
sentiment field equals the fixed-threshold classifier applied to the
polarity the scorer returns for the record's cleaned text — the polarity
*before* the 3-decimal rounding that produces the stored polarity field
(the two agree whenever rounding does not cross a threshold). -/
theorem sentiment_eq_classify_unrounded (scorer : Scorer)
    (texts : List (List Char)) (st : AnalyzerState) (r : Record)
    (hr : r ∈ (analyze_multiple scorer texts st).1) :
    r.sentiment = classify (scorer r.cleaned_text).1 ∧
    r.polarity = round3 (scorer r.cleaned_text).1 := by
  have h := amLoop_eq scorer texts []
  rw [analyze_multiple] at hr
  simp only [h, List.nil_append, List.mem_map] at hr
  obtain ⟨t, -, rfl⟩ := hr
  exact ⟨rfl, rfl⟩

/-- C4 amended witness: a concrete stored record. -/
theorem sentiment_eq_classify_unrounded_witness :
    (analyze_sentiment (fun _ => ((2/10 : ℚ), 0)) ("hi".toList)).sentiment =
      classify ((fun _ => ((2/10 : ℚ), 0))
        (analyze_sentiment (fun _ => ((2/10 : ℚ), 0)) ("hi".toList)).cleaned_text).1 ∧
    (analyze_sentiment (fun _ => ((2/10 : ℚ), 0)) ("hi".toList)).polarity =
      round3 ((fun _ => ((2/10 : ℚ), 0))
        (analyze_sentiment (fun _ => ((2/10 : ℚ), 0)) ("hi".toList)).cleaned_text).1 := by
  have h1 : ¬(pyStrip ['h', 'i'] = []) := by decide
  refine sentiment_eq_classify_unrounded (fun _ => ((2/10 : ℚ), 0))
    ["hi".toList] ⟨[]⟩ _ ?_
  simp [analyze_multiple, amLoop, h1]

/-- C5 counterexample: when the scoring backend raises on the only
document, the previously stored collection is not left intact: the state
afterwards is the empty collection (it was cleared before the loop), not
the prior one. -/
theorem failed_batch_prior_state_cex :
    (analyze_multiple_f (fun _ => none) ["bad".toList]
        ⟨[⟨"ok".toList, "ok".toList, Sentiment.Neutral, 0, 0⟩]⟩).1 = none ∧
    (analyze_multiple_f (fun _ => none) ["bad".toList]
        ⟨[⟨"ok".toList, "ok".toList, Sentiment.Neutral, 0, 0⟩]⟩).2 ≠
      ⟨[⟨"ok".toList, "ok".toList, Sentiment.Neutral, 0, 0⟩]⟩ := by
  have h1 : ¬(pyStrip ['b', 'a', 'd'] = []) := by decide
  constructor
  · simp [analyze_multiple_f, amLoopF, h1, analyze_sentiment_f]
  · intro heq
    have h2 := congrArg AnalyzerState.results heq
    simp [analyze_multiple_f, amLoopF, h1, analyze_sentiment_f] at h2

/-- Helper: when the loop of `analyze_multiple` hits a document on which
the backend raises, the texts split as the processed prefix, the failing
document and the unprocessed rest, and `self.results` holds the
accumulator plus the records of the prefix (every non-blank prefix
document was scored successfully and appended). -/
theorem amLoopF_none (scorer : PartialScorer) (ts : List (List Char))
    (acc : List Record) (h : (amLoopF scorer ts acc).1 = none) :
    ∃ ts1 t ts2, ts = ts1 ++ t :: ts2 ∧ (pyStrip t).isEmpty = false ∧
      analyze_sentiment_f scorer t = none ∧
      (amLoopF scorer ts acc).2 = acc ++ ts1.filterMap
        (fun u => if (pyStrip u).isEmpty then none
          else analyze_sentiment_f scorer u) ∧
      ∀ u ∈ ts1, (pyStrip u).isEmpty = false →
        (analyze_sentiment_f scorer u).isSome = true := by
  induction ts generalizing acc with
  | nil => simp [amLoopF] at h
  | cons t ts ih =>
    by_cases hb : (pyStrip t).isEmpty
    · have hb' : pyStrip t = [] := by simpa [List.isEmpty_iff] using hb
      rw [amLoopF, if_pos hb] at h ⊢
      obtain ⟨ts1, t', ts2, hts, hnb, hfail, hacc, hok⟩ := ih acc h
      refine ⟨t :: ts1, t', ts2, by simp [hts], hnb, hfail, ?_, ?_⟩
      · rw [hacc, List.filterMap_cons]
        simp [hb, hb']
      · intro u hu hnbu
        rcases List.mem_cons.mp hu with hu | hu
        · exact absurd hb (by simp [hu ▸ hnbu])
        · exact hok u hu hnbu
    · have hb' : ¬(pyStrip t = []) := by simpa [List.isEmpty_iff] using hb
      rw [amLoopF, if_neg hb] at h ⊢
      cases hs : analyze_sentiment_f scorer t with
      | none =>
        refine ⟨[], t, ts, rfl, by simpa using hb, hs, ?_, by simp⟩
        show acc = acc ++ List.filterMap _ []
        simp
      | some r =>
        rw [hs] at h
        obtain ⟨ts1, t', ts2, hts, hnb, hfail, hacc, hok⟩ := ih (acc ++ [r]) h
        refine ⟨t :: ts1, t', ts2, by simp [hts], hnb, hfail, ?_, ?_⟩
        · show (amLoopF scorer ts (acc ++ [r])).2 = _
          rw [hacc, List.filterMap_cons]
          simp [hb, hb', hs]
        · intro u hu hnbu
          rcases List.mem_cons.mp hu with hu | hu
          · simp [hu, hs]
          · exact hok u hu hnbu

/-- C5 amended: a failing batch does not preserve the prior collection.
The stored state never depends on it (it is cleared up front), and after a
backend failure the stored collection is the partially populated list of
records of the non-blank documents processed before the failing one. -/
theorem failed_batch_partial_state (scorer : PartialScorer)
    (texts : List (List Char)) (st st' : AnalyzerState) :
    (analyze_multiple_f scorer texts st).2 =
      (analyze_multiple_f scorer texts st').2 ∧
    ((analyze_multiple_f scorer texts st).1 = none →
      ∃ ts1 t ts2, texts = ts1 ++ t :: ts2 ∧ (pyStrip t).isEmpty = false ∧
        analyze_sentiment_f scorer t = none ∧
        (analyze_multiple_f scorer texts st).2.results = ts1.filterMap
          (fun u => if (pyStrip u).isEmpty then none
            else analyze_sentiment_f scorer u) ∧
        ∀ u ∈ ts1, (pyStrip u).isEmpty = false →
          (analyze_sentiment_f scorer u).isSome = true) := by
  refine ⟨rfl, fun h => ?_⟩
  obtain ⟨ts1, t, ts2, hts, hnb, hfail, hacc, hok⟩ :=
    amLoopF_none scorer texts [] (by simpa [analyze_multiple_f] using h)
  exact ⟨ts1, t, ts2, hts, hnb, hfail, by simpa [analyze_multiple_f] using hacc, hok⟩

/-- C5 amended witness: a backend failing on the only document. -/
theorem failed_batch_partial_state_witness :
    ∃ ts1 t ts2, (["bad".toList] : List (List Char)) = ts1 ++ t :: ts2 ∧
      (pyStrip t).isEmpty = false ∧
      analyze_sentiment_f (fun _ => none) t = none ∧
      (analyze_multiple_f (fun _ => none) ["bad".toList]
        ⟨[]⟩).2.results = ts1.filterMap
          (fun u => if (pyStrip u).isEmpty then none
            else analyze_sentiment_f (fun _ => none) u) ∧
      ∀ u ∈ ts1, (pyStrip u).isEmpty = false →
        (analyze_sentiment_f (fun _ => none) u).isSome = true := by
  refine (failed_batch_partial_state (fun _ => none) ["bad".toList] ⟨[]⟩ ⟨[]⟩).2 ?_
  have h1 : ¬(pyStrip ['b', 'a', 'd'] = []) := by decide
  simp [analyze_multiple_f, amLoopF, h1, analyze_sentiment_f]

/-- Helper: the key list of `bump`: unchanged when the word is already a
key, else the word is appended. -/
theorem keys_bump (w : List Char) (l : List (List Char × ℕ)) :
    (bump w l).map Prod.fst =
      if w ∈ l.map Prod.fst then l.map Prod.fst
      else l.map Prod.fst ++ [w] := by
  induction l with
  | nil => simp [bump]
  | cons x l ih =>
    obtain ⟨v, k⟩ := x
    by_cases hv : v = w
    · subst hv
      simp [bump]
    · by_cases hw : w ∈ l.map Prod.fst
      · simp [bump, hv, ih, hw, Ne.symm hv]
      · simp [bump, hv, ih, hw, Ne.symm hv]

/-- Helper: the keys accumulated by the `counter` fold. -/
theorem counter_foldl_keys (ws : List (List Char))
    (acc : List (List Char × ℕ)) (v : List Char) :
    v ∈ ((ws.foldl (fun a w => bump w a) acc).map Prod.fst) ↔
      v ∈ acc.map Prod.fst ∨ v ∈ ws := by
  induction ws generalizing acc with
  | nil => simp [List.foldl_nil]
  | cons t ts ih =>
    rw [List.foldl_cons, ih, keys_bump]
    by_cases h : t ∈ acc.map Prod.fst
    · rw [if_pos h]
      simp only [List.mem_cons]
      constructor
      · rintro (hv | hv)
        · exact Or.inl hv
        · exact Or.inr (Or.inr hv)
      · rintro (hv | hv | hv)
        · exact Or.inl hv
        · exact Or.inl (hv ▸ h)
        · exact Or.inr hv
    · rw [if_neg h]
      simp only [List.mem_append, List.mem_cons, List.mem_singleton]
      tauto

/-- Helper: the keys of `counter ws` are exactly the members of `ws`. -/
theorem counter_keys_mem (ws : List (List Char)) (v : List Char) :
    v ∈ (counter ws).map Prod.fst ↔ v ∈ ws := by
  simpa using counter_foldl_keys ws [] v

/-- Helper: a pair of `counter ws` has its word in `ws`. -/
theorem mem_counter_fst (ws : List (List Char)) (p : List Char × ℕ)
    (h : p ∈ counter ws) : p.1 ∈ ws :=
  (counter_keys_mem ws p.1).mp (List.mem_map_of_mem Prod.fst h)

/-- Helper: `counter` over a snoc. -/
theorem counter_snoc (ws : List (List Char)) (w : List Char) :
    counter (ws ++ [w]) = bump w (counter ws) := by
  simp [counter, List.foldl_append]

/-- Helper: a first-occurrence index is stable under appending. -/
theorem firstIdx_append_of_mem (ws l : List (List Char)) (u : List Char)
    (hu : u ∈ ws) : firstIdx (ws ++ l) u = firstIdx ws u := by
  induction ws with
  | nil => exact absurd hu (List.not_mem_nil u)
  | cons v vs ih =>
    by_cases hv : v = u
    · simp [firstIdx, hv]
    · rcases List.mem_cons.mp hu with hu' | hu'
      · exact absurd hu'.symm hv
      · simp [firstIdx, hv, ih hu']

/-- Helper: a member's first-occurrence index is below the length. -/
theorem firstIdx_lt_length (ws : List (List Char)) (u : List Char)
    (hu : u ∈ ws) : firstIdx ws u < ws.length := by
  induction ws with
  | nil => exact absurd hu (List.not_mem_nil u)
  | cons v vs ih =>
    by_cases hv : v = u
    · simp [firstIdx, hv]
    · rcases List.mem_cons.mp hu with hu' | hu'
      · exact absurd hu'.symm hv
      · simpa [firstIdx, hv] using ih hu'

/-- Helper: the first occurrence of a fresh word appended at the end. -/
theorem firstIdx_append_self (ws : List (List Char)) (w : List Char)
    (hw : w ∉ ws) : firstIdx (ws ++ [w]) w = ws.length := by
  induction ws with
  | nil => simp [firstIdx]
  | cons v vs ih =>
    have hv : v ≠ w := fun h => hw (h ▸ List.mem_cons_self v vs)
    simp [firstIdx, hv, ih (fun h => hw (List.mem_cons_of_mem v h))]

/-- Helper: the keys of `counter ws` are ordered by first occurrence in
`ws` (dict insertion order). -/
theorem counter_keys_pairwise (ws : List (List Char)) :
    ((counter ws).map Prod.fst).Pairwise
      (fun u v => firstIdx ws u < firstIdx ws v) := by
  induction ws using List.reverseRecOn with
  | nil => simp [counter]
  | append_singleton ws w ih =>
    rw [counter_snoc, keys_bump]
    by_cases h : w ∈ (counter ws).map Prod.fst
    · rw [if_pos h]
      refine ih.imp_of_mem ?_
      intro u v hu hv huv
      rw [firstIdx_append_of_mem ws _ u ((counter_keys_mem ws u).mp hu),
        firstIdx_append_of_mem ws _ v ((counter_keys_mem ws v).mp hv)]
      exact huv
    · rw [if_neg h]
      rw [List.pairwise_append]
      refine ⟨ih.imp_of_mem ?_, by simp, ?_⟩
      · intro u v hu hv huv
        rw [firstIdx_append_of_mem ws _ u ((counter_keys_mem ws u).mp hu),
          firstIdx_append_of_mem ws _ v ((counter_keys_mem ws v).mp hv)]
        exact huv
      · intro u hu v hv
        rw [List.mem_singleton] at hv
        subst hv
        have hu' : u ∈ ws := (counter_keys_mem ws u).mp hu
        have hw : v ∉ ws := fun hc => h ((counter_keys_mem ws v).mpr hc)
        rw [firstIdx_append_of_mem ws _ u hu', firstIdx_append_self ws v hw]
        exact firstIdx_lt_length ws u hu'

/-- Helper: `counter ws` is pairwise ordered by first occurrence. -/
theorem counter_pairwise (ws : List (List Char)) :
    (counter ws).Pairwise (fun a b => firstIdx ws a.1 < firstIdx ws b.1) := by
  have h := counter_keys_pairwise ws
  rwa [List.pairwise_map] at h

/-- Helper: `insertDesc` permutes the element in. -/
theorem insertDesc_perm (x : List Char × ℕ) (l : List (List Char × ℕ)) :
    List.Perm (insertDesc x l) (x :: l) := by
  induction l with
  | nil => exact List.Perm.refl _
  | cons y ys ih =>
    rw [insertDesc]
    by_cases h : y.2 ≤ x.2
    · rw [if_pos h]
    · rw [if_neg h]
      exact (List.Perm.cons y ih).trans (List.Perm.swap x y ys)

/-- Helper: the stable sort permutes its input. -/
theorem sortCountDesc_perm (l : List (List Char × ℕ)) :
    List.Perm (sortCountDesc l) l := by
  induction l with
  | nil => exact List.Perm.refl _
  | cons a l ih => exact (insertDesc_perm a _).trans (List.Perm.cons a ih)

/-- Helper: insertion into a descending-sorted list whose ties satisfy `R`,
where the new element bears `R` to everything present, keeps the invariant:
counts descending, ties in `R`-order (the new element goes after every
entry with a count ≥ its own, as a stable sort places it). -/
theorem insertDesc_pairwise
    (R : (List Char × ℕ) → (List Char × ℕ) → Prop) (x : List Char × ℕ)
    (ys : List (List Char × ℕ))
    (hys : ys.Pairwise fun a b => b.2 ≤ a.2 ∧ (a.2 = b.2 → R a b))
    (hall : ∀ y ∈ ys, R x y) :
    (insertDesc x ys).Pairwise
      fun a b => b.2 ≤ a.2 ∧ (a.2 = b.2 → R a b) := by
  induction ys with
  | nil => simp [insertDesc]
  | cons y ys ih =>
    rw [insertDesc]
    by_cases h : y.2 ≤ x.2
    · rw [if_pos h]
      refine List.pairwise_cons.mpr ⟨?_, hys⟩
      intro b hb
      rcases List.mem_cons.mp hb with hb | hb
      · subst hb
        exact ⟨h, fun _ => hall b (List.mem_cons_self _ _)⟩
      · have hyb := (List.pairwise_cons.mp hys).1 b hb
        exact ⟨le_trans hyb.1 h, fun _ => hall b (List.mem_cons_of_mem _ hb)⟩
    · rw [if_neg h]
      have hx : x.2 < y.2 := Nat.lt_of_not_le h
      refine List.pairwise_cons.mpr ⟨?_, ih (List.pairwise_cons.mp hys).2
        (fun b hb => hall b (List.mem_cons_of_mem _ hb))⟩
      intro b hb
      rcases List.mem_cons.mp ((insertDesc_perm x ys).mem_iff.mp hb) with hb | hb
      · subst hb
        exact ⟨le_of_lt hx, fun he => absurd he (by omega)⟩
      · exact (List.pairwise_cons.mp hys).1 b hb


/-- Helper: the stable descending sort of a list whose elements are
pairwise in `R`-order is pairwise descending in count with ties still in
`R`-order. -/
theorem sortCountDesc_pairwise
    (R : (List Char × ℕ) → (List Char × ℕ) → Prop)
    (l : List (List Char × ℕ)) (hl : l.Pairwise R) :
    (sortCountDesc l).Pairwise
      fun a b => b.2 ≤ a.2 ∧ (a.2 = b.2 → R a b) := by
  induction l with
  | nil => simp [sortCountDesc]
  | cons a l ih =>
    have hp := List.pairwise_cons.mp hl
    refine insertDesc_pairwise R a _ (ih hp.2) ?_
    intro y hy
    exact hp.1 y ((sortCountDesc_perm l).mem_iff.mp hy)

/-- Helper: every token `get_top_words` counts is longer than 2 characters
and not a stopword. -/
theorem topTokens_long_not_stop (rs : List Record) (w : List Char)
    (h : w ∈ topTokens rs) : 2 < w.length ∧ w ∉ stopwords := by
  rw [topTokens, List.mem_filterMap] at h
  obtain ⟨a, _, hfa⟩ := h
  by_cases hc : 2 < a.length ∧ lowerW a ∉ stopwords
  · rw [if_pos hc] at hfa
    obtain ⟨h1, h2⟩ := hc
    obtain rfl := Option.some_injective _ hfa
    exact ⟨by simpa [lowerW] using h1, h2⟩
  · rw [if_neg hc] at hfa
    exact absurd hfa (by simp)

/-- C7: no pair returned by `get_top_words` has a word of length ≤ 2 or a
stopword, for any state, sentiment filter and `top_n`. -/
theorem top_words_no_short_no_stopword (st : AnalyzerState)
    (styp : Option Sentiment) (n : ℕ) (w : List Char) (c : ℕ)
    (h : (w, c) ∈ get_top_words st styp n) :
    2 < w.length ∧ w ∉ stopwords := by
  rw [get_top_words] at h
  by_cases hres : st.results.isEmpty
  · rw [if_pos hres] at h
    exact absurd h (List.not_mem_nil _)
  · rw [if_neg hres] at h
    have h1 := (List.take_sublist n _).subset h
    have h2 := (sortCountDesc_perm _).mem_iff.mp h1
    exact topTokens_long_not_stop _ w (mem_counter_fst _ _ h2)

/-- C7 witness: a concrete collection where `great` is counted. -/
theorem top_words_no_short_no_stopword_witness :
    2 < ("great".toList).length ∧ "great".toList ∉ stopwords := by
  refine top_words_no_short_no_stopword
    ⟨[⟨"x".toList, "great great wall".toList, Sentiment.Positive, 0, 0⟩]⟩
    none 10 "great".toList 2 ?_
  decide

/-- C8: `get_top_words` returns at most `top_n` pairs, in descending count
order with ties in first-occurrence order of the word in the token list of
the concatenated cleaned text, and the empty list when no record matches
the filter or no token survives. -/
theorem top_words_ranking (st : AnalyzerState) (styp : Option Sentiment)
    (n : ℕ) :
    (get_top_words st styp n).length ≤ n ∧
    (get_top_words st styp n).Pairwise (fun a b => b.2 ≤ a.2 ∧ (a.2 = b.2 →
      firstIdx (topTokens (filteredRecords st styp)) a.1 <
        firstIdx (topTokens (filteredRecords st styp)) b.1)) ∧
    (filteredRecords st styp = [] → get_top_words st styp n = []) ∧
    (topTokens (filteredRecords st styp) = [] →
      get_top_words st styp n = []) := by
  rw [get_top_words]
  by_cases hres : st.results.isEmpty
  · rw [if_pos hres]
    exact ⟨by simp, by simp, fun _ => rfl, fun _ => rfl⟩
  · rw [if_neg hres]
    refine ⟨List.length_take_le _ _, ?_, ?_, ?_⟩
    · exact ((sortCountDesc_pairwise _ _
        (counter_pairwise (topTokens (filteredRecords st styp)))).sublist
        (List.take_sublist _ _))
    · intro h0
      rw [h0, show topTokens ([] : List Record) = [] from rfl,
        show counter [] = [] from rfl, show sortCountDesc [] = [] from rfl,
        List.take_nil]
    · intro h0
      rw [h0, show counter [] = [] from rfl,
        show sortCountDesc [] = [] from rfl, List.take_nil]

/-- C8 witness: a concrete bound at `top_n = 2`. -/
theorem top_words_ranking_witness :
    (get_top_words
      ⟨[⟨"x".toList, "great great wall".toList, Sentiment.Positive, 0, 0⟩]⟩
      none 2).length ≤ 2 :=
  (top_words_ranking
    ⟨[⟨"x".toList, "great great wall".toList, Sentiment.Positive, 0, 0⟩]⟩
    none 2).1

/-- C10: the aggregation methods return the state they received: the stored
collection, each record and their order are unchanged. -/
theorem aggregations_read_only (st : AnalyzerState)
    (sentiment_type : Option Sentiment) (top_n : ℕ) :
    (get_statistics_m st).2 = st ∧
    (get_top_words_m st sentiment_type top_n).2 = st ∧
    (get_statistics_m st).2.results = st.results ∧
    (get_top_words_m st sentiment_type top_n).2.results = st.results :=
  ⟨rfl, rfl, rfl, rfl⟩

/-! ### Scanning equations for the regex substitutions -/

/-- Helper: a URL match consumes at least one character. -/
theorem urlMatchLen_pos (l : List Char) (n : ℕ) (h : urlMatchLen l = some n) :
    1 ≤ n := by
  unfold urlMatchLen at h
  split_ifs at h <;> (injection h with h; omega)

/-- Helper: a mention match consumes at least one character. -/
theorem mentionMatchLen_pos (l : List Char) (n : ℕ)
    (h : mentionMatchLen l = some n) : 1 ≤ n := by
  unfold mentionMatchLen at h
  split_ifs at h
  injection h with h
  omega

/-- Helper: the URL scan does not depend on the fuel once it suffices. -/
theorem subUF_fuel : ∀ f g (l : List Char), l.length ≤ f → l.length ≤ g →
    subUF f l = subUF g l := by
  intro f
  induction f with
  | zero =>
    intro g l hf _
    obtain rfl : l = [] := List.length_eq_zero.mp (Nat.le_zero.mp hf)
    cases g <;> rfl
  | succ f ih =>
    intro g l hf hg
    cases l with
    | nil => cases g <;> rfl
    | cons c cs =>
      cases g with
      | zero => simp at hg
      | succ g =>
        simp only [List.length_cons] at hf hg
        simp only [subUF]
        cases hm : urlMatchLen (c :: cs) with
        | none =>
          rw [ih g cs (by omega) (by omega)]
        | some n =>
          have hn := urlMatchLen_pos _ _ hm
          refine ih g _ ?_ ?_ <;>
            (simp only [List.length_drop, List.length_cons]; omega)

/-- Helper: the mention scan does not depend on the fuel once it
suffices. -/
theorem subMF_fuel : ∀ f g (l : List Char), l.length ≤ f → l.length ≤ g →
    subMF f l = subMF g l := by
  intro f
  induction f with
  | zero =>
    intro g l hf _
    obtain rfl : l = [] := List.length_eq_zero.mp (Nat.le_zero.mp hf)
    cases g <;> rfl
  | succ f ih =>
    intro g l hf hg
    cases l with
    | nil => cases g <;> rfl
    | cons c cs =>
      cases g with
      | zero => simp at hg
      | succ g =>
        simp only [List.length_cons] at hf hg
        simp only [subMF]
        cases hm : mentionMatchLen (c :: cs) with
        | none =>
          rw [ih g cs (by omega) (by omega)]
        | some n =>
          have hn := mentionMatchLen_pos _ _ hm
          refine ih g _ ?_ ?_ <;>
            (simp only [List.length_drop, List.length_cons]; omega)

/-- Helper: the word splitter does not depend on the fuel once it
suffices. -/
theorem pyWordsF_fuel : ∀ f g (l : List Char), l.length ≤ f → l.length ≤ g →
    pyWordsF f l = pyWordsF g l := by
  intro f
  induction f with
  | zero =>
    intro g l hf _
    obtain rfl : l = [] := List.length_eq_zero.mp (Nat.le_zero.mp hf)
    cases g <;> rfl
  | succ f ih =>
    intro g l hf hg
    cases l with
    | nil => cases g <;> rfl
    | cons c cs =>
      cases g with
      | zero => simp at hg
      | succ g =>
        simp only [List.length_cons] at hf hg
        simp only [pyWordsF]
        have hcs : cs.length ≤ f := by omega
        have hcs' : cs.length ≤ g := by omega
        by_cases hc : pyIsSpace c
        · rw [if_pos hc, if_pos hc, ih g cs hcs hcs']
        · rw [if_neg hc, if_neg hc,
            ih g _ (le_trans ((List.dropWhile_suffix _).length_le) hcs)
              (le_trans ((List.dropWhile_suffix _).length_le) hcs')]

/-- Helper: `subU` on a match at the head skips the match. -/
theorem subU_match (c : Char) (cs : List Char) (n : ℕ)
    (h : urlMatchLen (c :: cs) = some n) :
    subU (c :: cs) = subU ((c :: cs).drop n) := by
  have hn := urlMatchLen_pos _ _ h
  show subUF (c :: cs).length (c :: cs) = _
  rw [show (c :: cs).length = cs.length + 1 from rfl]
  simp only [subUF, h]
  exact subUF_fuel _ _ _ (by simp only [List.length_drop, List.length_cons]; omega) le_rfl

/-- Helper: `subU` keeps a non-matching head character. -/
theorem subU_none (c : Char) (cs : List Char)
    (h : urlMatchLen (c :: cs) = none) : subU (c :: cs) = c :: subU cs := by
  show subUF (c :: cs).length (c :: cs) = _
  rw [show (c :: cs).length = cs.length + 1 from rfl]
  simp only [subUF, h]
  rfl

/-- Helper: `subM` on a match at the head skips the match. -/
theorem subM_match (c : Char) (cs : List Char) (n : ℕ)
    (h : mentionMatchLen (c :: cs) = some n) :
    subM (c :: cs) = subM ((c :: cs).drop n) := by
  have hn := mentionMatchLen_pos _ _ h
  show subMF (c :: cs).length (c :: cs) = _
  rw [show (c :: cs).length = cs.length + 1 from rfl]
  simp only [subMF, h]
  exact subMF_fuel _ _ _ (by simp only [List.length_drop, List.length_cons]; omega) le_rfl

/-- Helper: `subM` keeps a non-matching head character. -/
theorem subM_none (c : Char) (cs : List Char)
    (h : mentionMatchLen (c :: cs) = none) : subM (c :: cs) = c :: subM cs := by
  show subMF (c :: cs).length (c :: cs) = _
  rw [show (c :: cs).length = cs.length + 1 from rfl]
  simp only [subMF, h]
  rfl

/-- Helper: the unfolding equation of `pyWords`. -/
theorem pyWords_cons (c : Char) (cs : List Char) :
    pyWords (c :: cs) =
      if pyIsSpace c then pyWords cs
      else (c :: cs.takeWhile fun d => !pyIsSpace d) ::
        pyWords (cs.dropWhile fun d => !pyIsSpace d) := by
  show pyWordsF (c :: cs).length (c :: cs) = _
  rw [show (c :: cs).length = cs.length + 1 from rfl]
  simp only [pyWordsF]
  by_cases hc : pyIsSpace c
  · rw [if_pos hc, if_pos hc]
    rfl
  · rw [if_neg hc, if_neg hc,
      pyWordsF_fuel _ _ _ ((List.dropWhile_suffix _).length_le) le_rfl]
    rfl

/-- Helper: dropping the length of the `takeWhile` prefix is
`dropWhile`. -/
theorem drop_length_takeWhile (p : Char → Bool) (l : List Char) :
    l.drop (l.takeWhile p).length = l.dropWhile p := by
  induction l with
  | nil => rfl
  | cons c cs ih =>
    by_cases h : p c
    · simp [List.takeWhile_cons, List.dropWhile_cons, h, ih]
    · simp [List.takeWhile_cons, List.dropWhile_cons, h]

/-- Helper: no match at the head, as the two head conditions. -/
theorem urlMatchLen_eq_none (l : List Char) :
    urlMatchLen l = none ↔ ¬uCond l ∧ ¬wCond l := by
  unfold urlMatchLen
  split_ifs with h1 h2 <;> simp_all

/-- Helper: no mention match at the head. -/
theorem mentionMatchLen_eq_none (l : List Char) :
    mentionMatchLen l = none ↔ ¬mCond l := by
  unfold mentionMatchLen
  split_ifs with h1 <;> simp [h1]

/-- Helper: the empty string has no match. -/
theorem NoU_nil : NoU [] := by
  intro n
  constructor <;> intro h
  · exact absurd h.1 (by simp)
  · exact absurd h.1 (by simp)

/-- Helper: the empty string has no mention match. -/
theorem NoM_nil : NoM [] := by
  intro n h
  exact absurd h.1 (by simp)

/-- Helper: `NoU` passes to the tail. -/
theorem NoU_cons (c : Char) (cs : List Char) (h : NoU (c :: cs)) : NoU cs :=
  fun n => by have h1 := h (n + 1); rwa [List.drop_succ_cons] at h1

/-- Helper: `NoM` passes to the tail. -/
theorem NoM_cons (c : Char) (cs : List Char) (h : NoM (c :: cs)) : NoM cs :=
  fun n => by have h1 := h (n + 1); rwa [List.drop_succ_cons] at h1

/-- Helper: `NoU` passes to suffixes. -/
theorem NoU_drop (s : List Char) (h : NoU s) (n : ℕ) : NoU (s.drop n) :=
  fun m => by rw [List.drop_drop]; exact h (n + m)

/-- Helper: `NoM` passes to suffixes. -/
theorem NoM_drop (s : List Char) (h : NoM s) (n : ℕ) : NoM (s.drop n) :=
  fun m => by rw [List.drop_drop]; exact h (n + m)

/-- Helper: `subU` is the identity on match-free strings. -/
theorem subU_id (s : List Char) (h : NoU s) : subU s = s := by
  induction s with
  | nil => rfl
  | cons c cs ih =>
    have h0 := h 0
    rw [List.drop_zero] at h0
    rw [subU_none c cs ((urlMatchLen_eq_none _).mpr h0), ih (NoU_cons c cs h)]

/-- Helper: `subM` is the identity on mention-free strings. -/
theorem subM_id (s : List Char) (h : NoM s) : subM s = s := by
  induction s with
  | nil => rfl
  | cons c cs ih =>
    have h0 := h 0
    rw [List.drop_zero] at h0
    rw [subM_none c cs ((mentionMatchLen_eq_none _).mpr h0), ih (NoM_cons c cs h)]

/-- Helper: after dropping the non-whitespace run, whitespace (or nothing)
is next. -/
theorem head_dropWhile_space (l : List Char) :
    headSpace (l.dropWhile fun c => !pyIsSpace c) := by
  induction l with
  | nil => intro c hc; exact absurd hc (by simp)
  | cons d l ih =>
    by_cases hd : pyIsSpace d
    · rw [List.dropWhile_cons]
      simp only [hd, Bool.not_true, Bool.false_eq_true, if_false]
      intro c hc
      rw [List.get?_cons_zero, Option.some_inj] at hc
      exact hc ▸ hd
    · rw [List.dropWhile_cons]
      simp only [hd, Bool.not_false, if_true]
      exact ih

/-- Helper: after dropping the word-character run, a non-word character
(or nothing) is next. -/
theorem head_dropWhile_word (l : List Char) :
    headNonword (l.dropWhile isWordChar) := by
  induction l with
  | nil => intro c hc; exact absurd hc (by simp)
  | cons d l ih =>
    by_cases hd : isWordChar d
    · rw [List.dropWhile_cons]
      simp only [hd, if_true]
      exact ih
    · rw [List.dropWhile_cons]
      simp only [hd, Bool.false_eq_true, if_false]
      intro c hc
      rw [List.get?_cons_zero, Option.some_inj] at hc
      subst hc
      exact Bool.eq_false_iff.mpr hd

/-- Helper: what follows a URL match is whitespace or the end: the greedy
`\S+` consumed the whole non-whitespace run. -/
theorem after_url_headSpace (l : List Char) (n : ℕ)
    (h : urlMatchLen l = some n) : headSpace (l.drop n) := by
  unfold urlMatchLen at h
  split_ifs at h <;> injection h with h <;> subst h
  · rw [show nonspaceTake (l.drop 4) = ((l.drop 4).takeWhile
      fun c => !pyIsSpace c).length from rfl, ← List.drop_drop,
      drop_length_takeWhile]
    exact head_dropWhile_space _
  · rw [show nonspaceTake (l.drop 3) = ((l.drop 3).takeWhile
      fun c => !pyIsSpace c).length from rfl, ← List.drop_drop,
      drop_length_takeWhile]
    exact head_dropWhile_space _

/-- Helper: what follows a mention match is a non-word character or the
end: the greedy `\w+` consumed the whole word run. -/
theorem after_mention_headNonword (l : List Char) (n : ℕ)
    (h : mentionMatchLen l = some n) : headNonword (l.drop n) := by
  unfold mentionMatchLen at h
  split_ifs at h
  injection h with h
  subst h
  rw [show wordTake (l.drop 1) = ((l.drop 1).takeWhile isWordChar).length
    from rfl, ← List.drop_drop, drop_length_takeWhile]
  exact head_dropWhile_word _

/-- Helper: a whitespace head never starts a URL match. -/
theorem subU_keep_space (c : Char) (cs : List Char) (h : pyIsSpace c = true) :
    subU (c :: cs) = c :: subU cs := by
  refine subU_none c cs ((urlMatchLen_eq_none _).mpr ⟨?_, ?_⟩)
  · intro hc
    have h0 := hc.1
    rw [List.get?_cons_zero, Option.some_inj] at h0
    subst h0
    exact absurd h (by decide)
  · intro hc
    have h0 := hc.1
    rw [List.get?_cons_zero, Option.some_inj] at h0
    subst h0
    exact absurd h (by decide)

/-- Helper: `subU` keeps a whitespace head in place. -/
theorem headSpace_subU (t : List Char) (h : headSpace t) :
    headSpace (subU t) := by
  cases t with
  | nil => intro c hc; exact absurd hc (by simp [subU, subUF])
  | cons d t =>
    have hd := h d (List.get?_cons_zero)
    rw [subU_keep_space d t hd]
    intro c hc
    rw [List.get?_cons_zero, Option.some_inj] at hc
    exact hc ▸ hd

/-- Helper: `subM` of a string with a non-word head is empty or keeps a
non-word head (each removed mention is followed by a non-word position). -/
theorem headNonword_subM_aux : ∀ k (t : List Char), t.length ≤ k →
    headNonword t → headNonword (subM t) := by
  intro k
  induction k with
  | zero =>
    intro t ht h
    obtain rfl : t = [] := List.length_eq_zero.mp (Nat.le_zero.mp ht)
    exact h
  | succ k ih =>
    intro t ht h
    cases t with
    | nil => exact h
    | cons d t =>
      cases hm : mentionMatchLen (d :: t) with
      | none =>
        rw [subM_none d t hm]
        intro c hc
        rw [List.get?_cons_zero, Option.some_inj] at hc
        exact hc ▸ h d (List.get?_cons_zero)
      | some n =>
        rw [subM_match d t n hm]
        have hn := mentionMatchLen_pos _ _ hm
        refine ih _ ?_ (after_mention_headNonword _ n hm)
        simp only [List.length_drop, List.length_cons] at ht ⊢
        omega

/-- Helper: `subM` preserves a non-word head (or emptiness). -/
theorem headNonword_subM (t : List Char) (h : headNonword t) :
    headNonword (subM t) :=
  headNonword_subM_aux t.length t le_rfl h

/-- Helper: `subU` only removes characters. -/
theorem subU_sublist_aux : ∀ k (s : List Char), s.length ≤ k →
    (subU s).Sublist s := by
  intro k
  induction k with
  | zero =>
    intro s hs
    obtain rfl : s = [] := List.length_eq_zero.mp (Nat.le_zero.mp hs)
    exact List.Sublist.refl _
  | succ k ih =>
    intro s hs
    cases s with
    | nil => exact List.Sublist.refl _
    | cons c cs =>
      cases hm : urlMatchLen (c :: cs) with
      | none =>
        rw [subU_none c cs hm]
        exact (ih cs (by simp only [List.length_cons] at hs; omega)).cons₂ c
      | some n =>
        rw [subU_match c cs n hm]
        have hn := urlMatchLen_pos _ _ hm
        refine ((ih _ ?_).trans (List.drop_sublist n _))
        simp only [List.length_drop, List.length_cons] at hs ⊢
        omega

/-- Helper: `subU` only removes characters. -/
theorem subU_sublist (s : List Char) : (subU s).Sublist s :=
  subU_sublist_aux s.length s le_rfl

/-- Helper: `subM` only removes characters. -/
theorem subM_sublist_aux : ∀ k (s : List Char), s.length ≤ k →
    (subM s).Sublist s := by
  intro k
  induction k with
  | zero =>
    intro s hs
    obtain rfl : s = [] := List.length_eq_zero.mp (Nat.le_zero.mp hs)
    exact List.Sublist.refl _
  | succ k ih =>
    intro s hs
    cases s with
    | nil => exact List.Sublist.refl _
    | cons c cs =>
      cases hm : mentionMatchLen (c :: cs) with
      | none =>
        rw [subM_none c cs hm]
        exact (ih cs (by simp only [List.length_cons] at hs; omega)).cons₂ c
      | some n =>
        rw [subM_match c cs n hm]
        have hn := mentionMatchLen_pos _ _ hm
        refine ((ih _ ?_).trans (List.drop_sublist n _))
        simp only [List.length_drop, List.length_cons] at hs ⊢
        omega

/-- Helper: `subM` only removes characters. -/
theorem subM_sublist (s : List Char) : (subM s).Sublist s :=
  subM_sublist_aux s.length s le_rfl

/-- Helper: the URL head condition on a cons cell. -/
theorem uCond_cons_iff (c : Char) (X : List Char) :
    uCond (c :: X) ↔ c = 'h' ∧ X.get? 0 = some 't' ∧ X.get? 1 = some 't' ∧
      X.get? 2 = some 'p' ∧ nsOpt (X.get? 3) = true := by
  unfold uCond
  rw [show (c :: X).get? 0 = some c from rfl,
    show (c :: X).get? 1 = X.get? 0 from rfl,
    show (c :: X).get? 2 = X.get? 1 from rfl,
    show (c :: X).get? 3 = X.get? 2 from rfl,
    show (c :: X).get? 4 = X.get? 3 from rfl, Option.some_inj]

/-- Helper: the `www` head condition on a cons cell. -/
theorem wCond_cons_iff (c : Char) (X : List Char) :
    wCond (c :: X) ↔ c = 'w' ∧ X.get? 0 = some 'w' ∧ X.get? 1 = some 'w' ∧
      nsOpt (X.get? 2) = true := by
  unfold wCond
  rw [show (c :: X).get? 0 = some c from rfl,
    show (c :: X).get? 1 = X.get? 0 from rfl,
    show (c :: X).get? 2 = X.get? 1 from rfl,
    show (c :: X).get? 3 = X.get? 2 from rfl, Option.some_inj]

/-- Helper: the mention head condition on a cons cell. -/
theorem mCond_cons_iff (c : Char) (X : List Char) :
    mCond (c :: X) ↔ c = '@' ∧ wdOpt (X.get? 0) = true := by
  unfold mCond
  rw [show (c :: X).get? 0 = some c from rfl,
    show (c :: X).get? 1 = X.get? 0 from rfl, Option.some_inj]

/-- Helper (junction): removing a tail piece after a prefix `p` and
gluing a whitespace-headed remainder `r` cannot create a `http\S+` match
at the head when there was none: the glued character is whitespace, so it
can serve neither as one of the literals nor as the `\S`. -/
theorem junctionU_space_u (c : Char) (p p' r : List Char)
    (hu : ¬uCond (c :: (p ++ p'))) (hr : headSpace r) :
    ¬uCond (c :: (p ++ r)) := by
  intro hC
  rw [uCond_cons_iff] at hC
  obtain ⟨hc, h0, h1, h2, h3⟩ := hC
  rcases p with _ | ⟨a, _ | ⟨b, _ | ⟨d, _ | ⟨e, p⟩⟩⟩⟩
  · exact absurd (hr 't' h0) (by decide)
  · exact absurd (hr 't' h1) (by decide)
  · exact absurd (hr 'p' h2) (by decide)
  · have h3' : nsOpt (r.get? 0) = true := h3
    cases hr0 : r.get? 0 with
    | none => rw [hr0] at h3'; exact absurd h3' (by simp [nsOpt])
    | some x =>
      rw [hr0] at h3'
      simp [nsOpt, hr x hr0] at h3'
  · exact hu ((uCond_cons_iff _ _).mpr ⟨hc, h0, h1, h2, h3⟩)

/-- Helper (junction): the `www\S+` analogue of `junctionU_space_u`. -/
theorem junctionU_space_w (c : Char) (p p' r : List Char)
    (hw : ¬wCond (c :: (p ++ p'))) (hr : headSpace r) :
    ¬wCond (c :: (p ++ r)) := by
  intro hC
  rw [wCond_cons_iff] at hC
  obtain ⟨hc, h0, h1, h2⟩ := hC
  rcases p with _ | ⟨a, _ | ⟨b, p⟩⟩
  · exact absurd (hr 'w' h0) (by decide)
  · exact absurd (hr 'w' h1) (by decide)
  · cases p with
    | nil =>
      have h2' : nsOpt (r.get? 0) = true := h2
      cases hr0 : r.get? 0 with
      | none => rw [hr0] at h2'; exact absurd h2' (by simp [nsOpt])
      | some x =>
        rw [hr0] at h2'
        simp [nsOpt, hr x hr0] at h2'
    | cons d p => exact hw ((wCond_cons_iff _ _).mpr ⟨hc, h0, h1, h2⟩)

/-- Helper (junction): removing a mention `@...` after a prefix `p` and
gluing a non-word-headed remainder `r` cannot create a `http\S+` match at
the head: the glued character is not a word character (so none of
`t`, `t`, `p`), and in the `\S` slot the original `@` already made the
original string match. -/
theorem junctionU_at_u (c : Char) (p q r : List Char)
    (hu : ¬uCond (c :: (p ++ '@' :: q))) (hr : headNonword r) :
    ¬uCond (c :: (p ++ r)) := by
  intro hC
  rw [uCond_cons_iff] at hC
  obtain ⟨hc, h0, h1, h2, h3⟩ := hC
  rcases p with _ | ⟨a, _ | ⟨b, _ | ⟨d, _ | ⟨e, p⟩⟩⟩⟩
  · exact absurd (hr 't' h0) (by decide)
  · exact absurd (hr 't' h1) (by decide)
  · exact absurd (hr 'p' h2) (by decide)
  · exact hu ((uCond_cons_iff _ _).mpr
      ⟨hc, h0, h1, h2, (by decide : nsOpt (some '@') = true)⟩)
  · exact hu ((uCond_cons_iff _ _).mpr ⟨hc, h0, h1, h2, h3⟩)

/-- Helper (junction): the `www\S+` analogue of `junctionU_at_u`. -/
theorem junctionU_at_w (c : Char) (p q r : List Char)
    (hw : ¬wCond (c :: (p ++ '@' :: q))) (hr : headNonword r) :
    ¬wCond (c :: (p ++ r)) := by
  intro hC
  rw [wCond_cons_iff] at hC
  obtain ⟨hc, h0, h1, h2⟩ := hC
  rcases p with _ | ⟨a, _ | ⟨b, p⟩⟩
  · exact absurd (hr 'w' h0) (by decide)
  · exact absurd (hr 'w' h1) (by decide)
  · cases p with
    | nil => exact hw ((wCond_cons_iff _ _).mpr
        ⟨hc, h0, h1, (by decide : nsOpt (some '@') = true)⟩)
    | cons d p => exact hw ((wCond_cons_iff _ _).mpr ⟨hc, h0, h1, h2⟩)

/-- Helper (junction): gluing a non-word-headed remainder after a prefix
cannot create an `@\w+` match at the head when there was none. -/
theorem junctionM (c : Char) (p p' r : List Char)
    (hm : ¬mCond (c :: (p ++ p'))) (hr : headNonword r) :
    ¬mCond (c :: (p ++ r)) := by
  intro hC
  rw [mCond_cons_iff] at hC
  obtain ⟨hc, h0⟩ := hC
  cases p with
  | nil =>
    have h0' : wdOpt (r.get? 0) = true := h0
    cases hr0 : r.get? 0 with
    | none => rw [hr0] at h0'; exact absurd h0' (by simp [wdOpt])
    | some x =>
      rw [hr0] at h0'
      simp [wdOpt, hr x hr0] at h0'
  | cons a p => exact hm ((mCond_cons_iff _ _).mpr ⟨hc, h0⟩)

/-- Helper: the output of `subU` is either the input (no match was found)
or a kept prefix of the input followed by a whitespace-headed (or empty)
remainder — the junction left by the first removed match. -/
theorem subU_shape_aux : ∀ k (s : List Char), s.length ≤ k →
    subU s = s ∨ ∃ p p' r, s = p ++ p' ∧ subU s = p ++ r ∧ headSpace r := by
  intro k
  induction k with
  | zero =>
    intro s hs
    obtain rfl : s = [] := List.length_eq_zero.mp (Nat.le_zero.mp hs)
    exact Or.inl rfl
  | succ k ih =>
    intro s hs
    cases s with
    | nil => exact Or.inl rfl
    | cons c cs =>
      cases hm : urlMatchLen (c :: cs) with
      | some n =>
        refine Or.inr ⟨[], c :: cs, subU ((c :: cs).drop n), rfl, ?_, ?_⟩
        · rw [subU_match c cs n hm]
          rfl
        · exact headSpace_subU _ (after_url_headSpace _ n hm)
      | none =>
        rcases ih cs (by simp only [List.length_cons] at hs; omega) with
          hid | ⟨p, p', r, hcs, hsub, hr⟩
        · exact Or.inl (by rw [subU_none c cs hm, hid])
        · refine Or.inr ⟨c :: p, p', r, by rw [hcs]; rfl, ?_, hr⟩
          rw [subU_none c cs hm, hsub]
          rfl

/-- Helper: the output of `subM` is either the input or a kept prefix that
was followed by a removed `@`-mention, glued to a non-word-headed (or
empty) remainder. -/
theorem subM_shape_aux : ∀ k (s : List Char), s.length ≤ k →
    subM s = s ∨ ∃ p q r, s = p ++ '@' :: q ∧ subM s = p ++ r ∧
      headNonword r := by
  intro k
  induction k with
  | zero =>
    intro s hs
    obtain rfl : s = [] := List.length_eq_zero.mp (Nat.le_zero.mp hs)
    exact Or.inl rfl
  | succ k ih =>
    intro s hs
    cases s with
    | nil => exact Or.inl rfl
    | cons c cs =>
      cases hm : mentionMatchLen (c :: cs) with
      | some n =>
        have hc : c = '@' := by
          unfold mentionMatchLen at hm
          split_ifs at hm with h
          have h0 := h.1
          rwa [List.get?_cons_zero, Option.some_inj] at h0
        subst hc
        refine Or.inr ⟨[], cs, subM (('@' :: cs).drop n), rfl, ?_, ?_⟩
        · rw [subM_match _ cs n hm]
          rfl
        · exact headNonword_subM _ (after_mention_headNonword _ n hm)
      | none =>
        rcases ih cs (by simp only [List.length_cons] at hs; omega) with
          hid | ⟨p, q, r, hcs, hsub, hr⟩
        · exact Or.inl (by rw [subM_none c cs hm, hid])
        · refine Or.inr ⟨c :: p, q, r, by rw [hcs]; rfl, ?_, hr⟩
          rw [subM_none c cs hm, hsub]
          rfl

/-- Helper: the output of `subU` contains no URL match anywhere. -/
theorem NoU_subU_aux : ∀ k (s : List Char), s.length ≤ k →
    NoU (subU s) := by
  intro k
  induction k with
  | zero =>
    intro s hs
    obtain rfl : s = [] := List.length_eq_zero.mp (Nat.le_zero.mp hs)
    exact NoU_nil
  | succ k ih =>
    intro s hs
    cases s with
    | nil => exact NoU_nil
    | cons c cs =>
      cases hm : urlMatchLen (c :: cs) with
      | some n =>
        rw [subU_match c cs n hm]
        have hn := urlMatchLen_pos _ _ hm
        refine ih _ ?_
        simp only [List.length_drop, List.length_cons] at hs ⊢
        omega
      | none =>
        rw [subU_none c cs hm]
        have hcs : cs.length ≤ k := by
          simp only [List.length_cons] at hs; omega
        intro m
        cases m with
        | succ m =>
          rw [List.drop_succ_cons]
          exact ih cs hcs m
        | zero =>
          rw [List.drop_zero]
          have h0 := (urlMatchLen_eq_none _).mp hm
          rcases subU_shape_aux cs.length cs le_rfl with
            hid | ⟨p, p', r, hcs', hsub, hr⟩
          · rw [hid]
            exact h0
          · rw [hsub]
            subst hcs'
            exact ⟨junctionU_space_u c p p' r h0.1 hr,
              junctionU_space_w c p p' r h0.2 hr⟩

/-- Helper: `subU` leaves no URL match in its output. -/
theorem NoU_subU (s : List Char) : NoU (subU s) :=
  NoU_subU_aux s.length s le_rfl

/-- Helper: the output of `subM` contains no mention match anywhere. -/
theorem NoM_subM_aux : ∀ k (s : List Char), s.length ≤ k →
    NoM (subM s) := by
  intro k
  induction k with
  | zero =>
    intro s hs
    obtain rfl : s = [] := List.length_eq_zero.mp (Nat.le_zero.mp hs)
    exact NoM_nil
  | succ k ih =>
    intro s hs
    cases s with
    | nil => exact NoM_nil
    | cons c cs =>
      cases hm : mentionMatchLen (c :: cs) with
      | some n =>
        rw [subM_match c cs n hm]
        have hn := mentionMatchLen_pos _ _ hm
        refine ih _ ?_
        simp only [List.length_drop, List.length_cons] at hs ⊢
        omega
      | none =>
        rw [subM_none c cs hm]
        have hcs : cs.length ≤ k := by
          simp only [List.length_cons] at hs; omega
        intro m
        cases m with
        | succ m =>
          rw [List.drop_succ_cons]
          exact ih cs hcs m
        | zero =>
          rw [List.drop_zero]
          have h0 := (mentionMatchLen_eq_none _).mp hm
          rcases subM_shape_aux cs.length cs le_rfl with
            hid | ⟨p, q, r, hcs', hsub, hr⟩
          · rw [hid]
            exact h0
          · rw [hsub]
            subst hcs'
            exact junctionM c p ('@' :: q) r h0 hr

/-- Helper: `subM` leaves no mention match in its output. -/
theorem NoM_subM (s : List Char) : NoM (subM s) :=
  NoM_subM_aux s.length s le_rfl

/-- Helper: `subM` preserves URL-match-freeness: removing mentions from a
URL-free string cannot manufacture a URL. -/
theorem subM_pres_NoU_aux : ∀ k (s : List Char), s.length ≤ k → NoU s →
    NoU (subM s) := by
  intro k
  induction k with
  | zero =>
    intro s hs _
    obtain rfl : s = [] := List.length_eq_zero.mp (Nat.le_zero.mp hs)
    exact NoU_nil
  | succ k ih =>
    intro s hs hNo
    cases s with
    | nil => exact NoU_nil
    | cons c cs =>
      cases hm : mentionMatchLen (c :: cs) with
      | some n =>
        rw [subM_match c cs n hm]
        have hn := mentionMatchLen_pos _ _ hm
        refine ih _ ?_ (NoU_drop _ hNo n)
        simp only [List.length_drop, List.length_cons] at hs ⊢
        omega
      | none =>
        rw [subM_none c cs hm]
        have hcs : cs.length ≤ k := by
          simp only [List.length_cons] at hs; omega
        intro m
        cases m with
        | succ m =>
          rw [List.drop_succ_cons]
          exact ih cs hcs (NoU_cons c cs hNo) m
        | zero =>
          rw [List.drop_zero]
          have h0 := hNo 0
          rw [List.drop_zero] at h0
          rcases subM_shape_aux cs.length cs le_rfl with
            hid | ⟨p, q, r, hcs', hsub, hr⟩
          · rw [hid]
            exact h0
          · rw [hsub]
            subst hcs'
            exact ⟨junctionU_at_u c p q r h0.1 hr,
              junctionU_at_w c p q r h0.2 hr⟩

/-- Helper: `subM` preserves URL-match-freeness. -/
theorem subM_pres_NoU (s : List Char) (h : NoU s) : NoU (subM s) :=
  subM_pres_NoU_aux s.length s le_rfl h

/-- Helper: the URL head condition at a dropped position, as absolute
positions. -/
theorem uCond_drop_iff (s : List Char) (n : ℕ) :
    uCond (s.drop n) ↔ s.get? n = some 'h' ∧ s.get? (n+1) = some 't' ∧
      s.get? (n+2) = some 't' ∧ s.get? (n+3) = some 'p' ∧
      nsOpt (s.get? (n+4)) = true := by
  unfold uCond
  simp [List.get?_drop]

/-- Helper: the `www` head condition at a dropped position. -/
theorem wCond_drop_iff (s : List Char) (n : ℕ) :
    wCond (s.drop n) ↔ s.get? n = some 'w' ∧ s.get? (n+1) = some 'w' ∧
      s.get? (n+2) = some 'w' ∧ nsOpt (s.get? (n+3)) = true := by
  unfold wCond
  simp [List.get?_drop]

/-- Helper: the mention head condition at a dropped position. -/
theorem mCond_drop_iff (s : List Char) (n : ℕ) :
    mCond (s.drop n) ↔ s.get? n = some '@' ∧ wdOpt (s.get? (n+1)) = true := by
  unfold mCond
  simp [List.get?_drop]

/-- Helper: reading inside an infix piece. -/
theorem get?_piece (u t v : List Char) (j : ℕ) (x : Char)
    (h : t.get? j = some x) : (u ++ t ++ v).get? (u.length + j) = some x := by
  rw [List.append_assoc, List.get?_append_right (Nat.le_add_right _ _)]
  have hj : u.length + j - u.length = j := by omega
  rw [hj]
  obtain ⟨hlt, -⟩ := List.get?_eq_some.mp h
  rw [List.get?_append hlt]
  exact h

/-- Helper: a substring of a URL-match-free string is URL-match-free (a
match inside the piece would be a match of the whole). -/
theorem NoU_piece (s t : List Char) (hN : NoU s) (hi : t.IsInfix s) :
    NoU t := by
  obtain ⟨u, v, rfl⟩ := hi
  intro n
  constructor
  · intro hC
    rw [uCond_drop_iff] at hC
    obtain ⟨h0, h1, h2, h3, h4⟩ := hC
    cases hx : t.get? (n+4) with
    | none => rw [hx] at h4; exact absurd h4 (by simp [nsOpt])
    | some x =>
      refine absurd ?_ (hN (u.length + n)).1
      rw [uCond_drop_iff]
      refine ⟨get?_piece u t v n 'h' h0, get?_piece u t v (n+1) 't' h1,
        get?_piece u t v (n+2) 't' h2, get?_piece u t v (n+3) 'p' h3, ?_⟩
      have hg : (u ++ t ++ v).get? (u.length + n + 4) = some x :=
        get?_piece u t v (n+4) x hx
      rw [hg]
      rw [hx] at h4
      exact h4
  · intro hC
    rw [wCond_drop_iff] at hC
    obtain ⟨h0, h1, h2, h3⟩ := hC
    cases hx : t.get? (n+3) with
    | none => rw [hx] at h3; exact absurd h3 (by simp [nsOpt])
    | some x =>
      refine absurd ?_ (hN (u.length + n)).2
      rw [wCond_drop_iff]
      refine ⟨get?_piece u t v n 'w' h0, get?_piece u t v (n+1) 'w' h1,
        get?_piece u t v (n+2) 'w' h2, ?_⟩
      have hg : (u ++ t ++ v).get? (u.length + n + 3) = some x :=
        get?_piece u t v (n+3) x hx
      rw [hg]
      rw [hx] at h3
      exact h3

/-- Helper: a substring of a mention-match-free string is
mention-match-free. -/
theorem NoM_piece (s t : List Char) (hN : NoM s) (hi : t.IsInfix s) :
    NoM t := by
  obtain ⟨u, v, rfl⟩ := hi
  intro n hC
  rw [mCond_drop_iff] at hC
  obtain ⟨h0, h1⟩ := hC
  cases hx : t.get? (n+1) with
  | none => rw [hx] at h1; exact absurd h1 (by simp [wdOpt])
  | some x =>
    refine absurd ?_ (hN (u.length + n))
    rw [mCond_drop_iff]
    refine ⟨get?_piece u t v n '@' h0, ?_⟩
    have hg : (u ++ t ++ v).get? (u.length + n + 1) = some x :=
      get?_piece u t v (n+1) x hx
    rw [hg]
    rw [hx] at h1
    exact h1

/-- Helper: indexing into `a ++ ' ' :: b` by zones. -/
theorem get?_append_space (a b : List Char) (i : ℕ) :
    (a ++ ' ' :: b).get? i =
      if i < a.length then a.get? i
      else if i = a.length then some ' '
      else b.get? (i - a.length - 1) := by
  split_ifs with hlt heq
  · exact List.get?_append hlt
  · subst heq
    rw [List.get?_append_right le_rfl, Nat.sub_self]
    rfl
  · rw [List.get?_append_right (by omega)]
    have he : i - a.length = (i - a.length - 1) + 1 := by omega
    rw [he, List.get?_cons_succ, Nat.add_sub_cancel]

/-- Helper: a single-space separator blocks URL matches from spanning the
junction: if both sides are URL-match-free, so is the joined string. -/
theorem NoU_append_space (a b : List Char) (ha : NoU a) (hb : NoU b) :
    NoU (a ++ ' ' :: b) := by
  intro n
  constructor
  · intro hC
    rw [uCond_drop_iff] at hC
    obtain ⟨h0, h1, h2, h3, h4⟩ := hC
    rw [get?_append_space] at h0 h1 h2 h3 h4
    by_cases c0 : n < a.length
    · by_cases c4 : n + 4 < a.length
      · refine absurd ?_ (ha n).1
        rw [uCond_drop_iff]
        rw [if_pos c0] at h0
        rw [if_pos (by omega : n + 1 < a.length)] at h1
        rw [if_pos (by omega : n + 2 < a.length)] at h2
        rw [if_pos (by omega : n + 3 < a.length)] at h3
        rw [if_pos (by omega : n + 4 < a.length)] at h4
        exact ⟨h0, h1, h2, h3, h4⟩
      · have hL : a.length = n + 1 ∨ a.length = n + 2 ∨ a.length = n + 3 ∨
            a.length = n + 4 := by omega
        rcases hL with hL | hL | hL | hL
        · rw [if_neg (by omega), if_pos (by omega)] at h1
          simp at h1
        · rw [if_neg (by omega), if_pos (by omega)] at h2
          simp at h2
        · rw [if_neg (by omega), if_pos (by omega)] at h3
          simp at h3
        · rw [if_neg (by omega), if_pos (by omega)] at h4
          exact absurd h4 (by decide)
    · by_cases ceq : n = a.length
      · rw [if_neg c0, if_pos ceq] at h0
        simp at h0
      · rw [if_neg (by omega : ¬n < a.length),
          if_neg (by omega : ¬n = a.length)] at h0
        rw [if_neg (by omega : ¬n + 1 < a.length),
          if_neg (by omega : ¬n + 1 = a.length)] at h1
        rw [if_neg (by omega : ¬n + 2 < a.length),
          if_neg (by omega : ¬n + 2 = a.length)] at h2
        rw [if_neg (by omega : ¬n + 3 < a.length),
          if_neg (by omega : ¬n + 3 = a.length)] at h3
        rw [if_neg (by omega : ¬n + 4 < a.length),
          if_neg (by omega : ¬n + 4 = a.length)] at h4
        refine absurd ?_ (hb (n - a.length - 1)).1
        rw [uCond_drop_iff]
        rw [show n + 1 - a.length - 1 = n - a.length - 1 + 1 by omega] at h1
        rw [show n + 2 - a.length - 1 = n - a.length - 1 + 2 by omega] at h2
        rw [show n + 3 - a.length - 1 = n - a.length - 1 + 3 by omega] at h3
        rw [show n + 4 - a.length - 1 = n - a.length - 1 + 4 by omega] at h4
        exact ⟨h0, h1, h2, h3, h4⟩
  · intro hC
    rw [wCond_drop_iff] at hC
    obtain ⟨h0, h1, h2, h3⟩ := hC
    rw [get?_append_space] at h0 h1 h2 h3
    by_cases c0 : n < a.length
    · by_cases c3 : n + 3 < a.length
      · refine absurd ?_ (ha n).2
        rw [wCond_drop_iff]
        rw [if_pos c0] at h0
        rw [if_pos (by omega : n + 1 < a.length)] at h1
        rw [if_pos (by omega : n + 2 < a.length)] at h2
        rw [if_pos (by omega : n + 3 < a.length)] at h3
        exact ⟨h0, h1, h2, h3⟩
      · have hL : a.length = n + 1 ∨ a.length = n + 2 ∨ a.length = n + 3 := by
          omega
        rcases hL with hL | hL | hL
        · rw [if_neg (by omega), if_pos (by omega)] at h1
          simp at h1
        · rw [if_neg (by omega), if_pos (by omega)] at h2
          simp at h2
        · rw [if_neg (by omega), if_pos (by omega)] at h3
          exact absurd h3 (by decide)
    · by_cases ceq : n = a.length
      · rw [if_neg c0, if_pos ceq] at h0
        simp at h0
      · rw [if_neg (by omega : ¬n < a.length),
          if_neg (by omega : ¬n = a.length)] at h0
        rw [if_neg (by omega : ¬n + 1 < a.length),
          if_neg (by omega : ¬n + 1 = a.length)] at h1
        rw [if_neg (by omega : ¬n + 2 < a.length),
          if_neg (by omega : ¬n + 2 = a.length)] at h2
        rw [if_neg (by omega : ¬n + 3 < a.length),
          if_neg (by omega : ¬n + 3 = a.length)] at h3
        refine absurd ?_ (hb (n - a.length - 1)).2
        rw [wCond_drop_iff]
        rw [show n + 1 - a.length - 1 = n - a.length - 1 + 1 by omega] at h1
        rw [show n + 2 - a.length - 1 = n - a.length - 1 + 2 by omega] at h2
        rw [show n + 3 - a.length - 1 = n - a.length - 1 + 3 by omega] at h3
        exact ⟨h0, h1, h2, h3⟩

/-- Helper: a single-space separator blocks mention matches from spanning
the junction. -/
theorem NoM_append_space (a b : List Char) (ha : NoM a) (hb : NoM b) :
    NoM (a ++ ' ' :: b) := by
  intro n hC
  rw [mCond_drop_iff] at hC
  obtain ⟨h0, h1⟩ := hC
  rw [get?_append_space] at h0 h1
  by_cases c0 : n < a.length
  · by_cases c1 : n + 1 < a.length
    · refine absurd ?_ (ha n)
      rw [mCond_drop_iff]
      rw [if_pos c0] at h0
      rw [if_pos c1] at h1
      exact ⟨h0, h1⟩
    · rw [if_neg (by omega), if_pos (by omega : n + 1 = a.length)] at h1
      exact absurd h1 (by decide)
  · by_cases ceq : n = a.length
    · rw [if_neg c0, if_pos ceq] at h0
      simp at h0
    · rw [if_neg (by omega : ¬n < a.length),
        if_neg (by omega : ¬n = a.length)] at h0
      rw [if_neg (by omega : ¬n + 1 < a.length),
        if_neg (by omega : ¬n + 1 = a.length)] at h1
      refine absurd ?_ (hb (n - a.length - 1))
      rw [mCond_drop_iff]
      rw [show n + 1 - a.length - 1 = n - a.length - 1 + 1 by omega] at h1
      exact ⟨h0, h1⟩

/-- Helper: `unwords` on two or more words. -/
theorem unwords_cons₂ (w x : List Char) (xs : List (List Char)) :
    unwords (w :: x :: xs) = w ++ ' ' :: unwords (x :: xs) := rfl

/-- Helper: joining URL-match-free words with single spaces stays
URL-match-free. -/
theorem NoU_unwords (ws : List (List Char)) (h : ∀ w ∈ ws, NoU w) :
    NoU (unwords ws) := by
  induction ws with
  | nil => exact NoU_nil
  | cons w ws ih =>
    cases ws with
    | nil => exact h w (by simp)
    | cons x xs =>
      rw [unwords_cons₂]
      exact NoU_append_space _ _ (h w (by simp))
        (ih fun v hv => h v (by simp [hv]))

/-- Helper: joining mention-free words with single spaces stays
mention-free. -/
theorem NoM_unwords (ws : List (List Char)) (h : ∀ w ∈ ws, NoM w) :
    NoM (unwords ws) := by
  induction ws with
  | nil => exact NoM_nil
  | cons w ws ih =>
    cases ws with
    | nil => exact h w (by simp)
    | cons x xs =>
      rw [unwords_cons₂]
      exact NoM_append_space _ _ (h w (by simp))
        (ih fun v hv => h v (by simp [hv]))

/-- Helper: an infix of the tail is an infix. -/
theorem isInfix_cons (c : Char) (t cs : List Char) (h : t.IsInfix cs) :
    t.IsInfix (c :: cs) := by
  obtain ⟨u, v, huv⟩ := h
  exact ⟨c :: u, v, by rw [← huv]; rfl⟩

/-- Helper: every token of `pyWords` is an infix of the input. -/
theorem pyWords_piece_aux : ∀ k (l : List Char), l.length ≤ k →
    ∀ w ∈ pyWords l, w.IsInfix l := by
  intro k
  induction k with
  | zero =>
    intro l hl w hw
    obtain rfl : l = [] := List.length_eq_zero.mp (Nat.le_zero.mp hl)
    exact absurd hw (by simp [pyWords, pyWordsF])
  | succ k ih =>
    intro l hl w hw
    cases l with
    | nil => exact absurd hw (by simp [pyWords, pyWordsF])
    | cons c cs =>
      rw [pyWords_cons] at hw
      have hcs : cs.length ≤ k := by simp only [List.length_cons] at hl; omega
      by_cases hc : pyIsSpace c
      · rw [if_pos hc] at hw
        exact isInfix_cons c w cs (ih cs hcs w hw)
      · rw [if_neg hc] at hw
        rcases List.mem_cons.mp hw with hw | hw
        · subst hw
          have ht : cs.takeWhile (fun d => !pyIsSpace d) ++
              cs.dropWhile (fun d => !pyIsSpace d) = cs :=
            List.takeWhile_append_dropWhile (fun d => !pyIsSpace d) cs
          exact ⟨[], cs.dropWhile (fun d => !pyIsSpace d),
            by rw [List.nil_append, List.cons_append, ht]⟩
        · refine isInfix_cons c w cs (List.IsInfix.trans (ih _ ?_ w hw)
            (List.dropWhile_suffix _).isInfix)
          exact le_trans (List.dropWhile_suffix _).length_le hcs

/-- Helper: every token of `pyWords` is an infix of the input. -/
theorem pyWords_piece (l : List Char) (w : List Char) (hw : w ∈ pyWords l) :
    w.IsInfix l :=
  pyWords_piece_aux l.length l le_rfl w hw

/-- Helper: every token of `pyWords` is non-empty and whitespace-free. -/
theorem pyWords_tokens_aux : ∀ k (l : List Char), l.length ≤ k →
    ∀ w ∈ pyWords l, w ≠ [] ∧ ∀ d ∈ w, pyIsSpace d = false := by
  intro k
  induction k with
  | zero =>
    intro l hl w hw
    obtain rfl : l = [] := List.length_eq_zero.mp (Nat.le_zero.mp hl)
    exact absurd hw (by simp [pyWords, pyWordsF])
  | succ k ih =>
    intro l hl w hw
    cases l with
    | nil => exact absurd hw (by simp [pyWords, pyWordsF])
    | cons c cs =>
      rw [pyWords_cons] at hw
      have hcs : cs.length ≤ k := by simp only [List.length_cons] at hl; omega
      by_cases hc : pyIsSpace c
      · rw [if_pos hc] at hw
        exact ih cs hcs w hw
      · rw [if_neg hc] at hw
        rcases List.mem_cons.mp hw with hw | hw
        · subst hw
          refine ⟨by simp, ?_⟩
          intro d hd
          rcases List.mem_cons.mp hd with hd | hd
          · exact hd ▸ Bool.eq_false_iff.mpr hc
          · have := List.mem_takeWhile_imp hd
            simpa using this
        · refine ih _ ?_ w hw
          exact le_trans (List.dropWhile_suffix _).length_le hcs

/-- Helper: every token of `pyWords` is non-empty and whitespace-free. -/
theorem pyWords_tokens (l w : List Char) (hw : w ∈ pyWords l) :
    w ≠ [] ∧ ∀ d ∈ w, pyIsSpace d = false :=
  pyWords_tokens_aux l.length l le_rfl w hw

/-- Helper: `takeWhile` runs through an all-true block. -/
theorem takeWhile_all_append (p : Char → Bool) (w x : List Char)
    (h : ∀ d ∈ w, p d = true) :
    (w ++ x).takeWhile p = w ++ x.takeWhile p := by
  induction w with
  | nil => rfl
  | cons c w ih =>
    rw [List.cons_append, List.takeWhile_cons]
    rw [h c (List.mem_cons_self _ _)]
    simp only [if_true]
    rw [ih fun d hd => h d (List.mem_cons_of_mem _ hd)]
    rfl

/-- Helper: `dropWhile` runs through an all-true block. -/
theorem dropWhile_all_append (p : Char → Bool) (w x : List Char)
    (h : ∀ d ∈ w, p d = true) :
    (w ++ x).dropWhile p = x.dropWhile p := by
  induction w with
  | nil => rfl
  | cons c w ih =>
    rw [List.cons_append, List.dropWhile_cons]
    rw [h c (List.mem_cons_self _ _)]
    simp only [if_true]
    exact ih fun d hd => h d (List.mem_cons_of_mem _ hd)

/-- Helper: splitting a single whitespace-free word gives it back. -/
theorem pyWords_single (w : List Char) (hne : w ≠ [])
    (hns : ∀ d ∈ w, pyIsSpace d = false) : pyWords w = [w] := by
  cases w with
  | nil => exact absurd rfl hne
  | cons c cs =>
    rw [pyWords_cons,
      if_neg (by simp [hns c (List.mem_cons_self _ _)]),
      List.takeWhile_eq_self_iff.mpr
        (fun d hd => by simp [hns d (List.mem_cons_of_mem _ hd)]),
      List.dropWhile_eq_nil_iff.mpr
        (fun d hd => by simp [hns d (List.mem_cons_of_mem _ hd)])]
    rfl

/-- Helper: splitting a word, a space and a rest. -/
theorem pyWords_word_space (w t : List Char) (hne : w ≠ [])
    (hns : ∀ d ∈ w, pyIsSpace d = false) :
    pyWords (w ++ ' ' :: t) = w :: pyWords t := by
  cases w with
  | nil => exact absurd rfl hne
  | cons c cs =>
    rw [List.cons_append, pyWords_cons,
      if_neg (by simp [hns c (List.mem_cons_self _ _)]),
      takeWhile_all_append _ cs (' ' :: t)
        (fun d hd => by simp [hns d (List.mem_cons_of_mem _ hd)]),
      dropWhile_all_append _ cs (' ' :: t)
        (fun d hd => by simp [hns d (List.mem_cons_of_mem _ hd)])]
    rw [show (' ' :: t).takeWhile (fun d => !pyIsSpace d) = [] from rfl,
      show (' ' :: t).dropWhile (fun d => !pyIsSpace d) = ' ' :: t from rfl,
      List.append_nil]
    rw [show pyWords (' ' :: t) = pyWordsF (t.length + 1) (' ' :: t) from rfl]
    simp only [pyWordsF]
    rw [if_pos (by decide)]
    rfl

/-- Helper: `pyWords` inverts `unwords` on lists of non-empty,
whitespace-free words. -/
theorem pyWords_unwords (ws : List (List Char))
    (h : ∀ w ∈ ws, w ≠ [] ∧ ∀ d ∈ w, pyIsSpace d = false) :
    pyWords (unwords ws) = ws := by
  induction ws with
  | nil => rfl
  | cons w ws ih =>
    cases ws with
    | nil =>
      exact pyWords_single w (h w (by simp)).1 (h w (by simp)).2
    | cons x xs =>
      rw [unwords_cons₂,
        pyWords_word_space w _ (h w (by simp)).1 (h w (by simp)).2,
        ih fun v hv => h v (by simp [hv])]

/-- Helper: whitespace collapsing is idempotent. -/
theorem collapse_idem (s : List Char) : collapse (collapse s) = collapse s := by
  show unwords (pyWords (unwords (pyWords s))) = unwords (pyWords s)
  rw [pyWords_unwords (pyWords s) (fun w hw => pyWords_tokens s w hw)]

/-- Helper: collapsing preserves URL-match-freeness (tokens are infixes,
and the single-space separators block new matches). -/
theorem NoU_collapse (s : List Char) (h : NoU s) : NoU (collapse s) :=
  NoU_unwords _ fun w hw => NoU_piece s w h (pyWords_piece s w hw)

/-- Helper: collapsing preserves mention-freeness. -/
theorem NoM_collapse (s : List Char) (h : NoM s) : NoM (collapse s) :=
  NoM_unwords _ fun w hw => NoM_piece s w h (pyWords_piece s w hw)

/-- Helper: characters of `unwords` come from the words or are spaces. -/
theorem mem_unwords (c : Char) (ws : List (List Char))
    (h : c ∈ unwords ws) : c = ' ' ∨ ∃ w ∈ ws, c ∈ w := by
  induction ws with
  | nil => exact absurd h (by simp [unwords])
  | cons w ws ih =>
    cases ws with
    | nil => exact Or.inr ⟨w, by simp, h⟩
    | cons x xs =>
      rw [unwords_cons₂] at h
      rcases List.mem_append.mp h with h | h
      · exact Or.inr ⟨w, by simp, h⟩
      · rcases List.mem_cons.mp h with h | h
        · exact Or.inl h
        · rcases ih h with h | ⟨v, hv, hc⟩
          · exact Or.inl h
          · exact Or.inr ⟨v, by simp [List.mem_cons.mp hv], hc⟩

/-- Helper: characters of `collapse` come from the input or are spaces. -/
theorem mem_collapse (c : Char) (s : List Char) (h : c ∈ collapse s) :
    c = ' ' ∨ c ∈ s := by
  rcases mem_unwords c (pyWords s) h with h | ⟨w, hw, hc⟩
  · exact Or.inl h
  · exact Or.inr ((pyWords_piece s w hw).subset hc)

/-- Helper: removing `#` from a `#`-free string is the identity. -/
theorem stripHash_eq_self (s : List Char) (h : '#' ∉ s) :
    stripHash s = s := by
  refine List.filter_eq_self.mpr fun c hc => ?_
  simp only [bne_iff_ne, ne_eq]
  intro he
  exact h (he ▸ hc)

/-- Helper: `subU` introduces no `#`. -/
theorem no_hash_subU (s : List Char) (h : '#' ∉ s) : '#' ∉ subU s :=
  fun hc => h ((subU_sublist s).subset hc)

/-- Helper: `subM` introduces no `#`. -/
theorem no_hash_subM (s : List Char) (h : '#' ∉ s) : '#' ∉ subM s :=
  fun hc => h ((subM_sublist s).subset hc)

/-- Helper: `collapse` introduces no `#`. -/
theorem no_hash_collapse (s : List Char) (h : '#' ∉ s) : '#' ∉ collapse s := by
  intro hc
  rcases mem_collapse '#' s hc with he | he
  · exact absurd he (by decide)
  · exact h he

/-- C3 counterexample: `clean` is not idempotent.  On `"htt#px"` the `#`
removal splices the pieces into the URL-shaped token `httpx`, which the
second pass deletes entirely: `clean("htt#px") = "httpx"` but
`clean("httpx") = ""`. -/
theorem clean_text_not_idempotent :
    clean_text (clean_text ("htt#px".toList)) ≠
      clean_text ("htt#px".toList) := by
  decide

/-- C3 amended: the cleaner is idempotent on every input that contains no
`#` character.  (With a `#`, the `#`-removal stage can create a new URL or
mention token out of the surrounding characters, as the counterexample
shows; without one, each removal stage leaves no match of its own pattern
or of the later stages' patterns, so a second pass changes nothing.) -/
theorem clean_text_idempotent_of_no_hash (x : List Char) (hx : '#' ∉ x) :
    clean_text (clean_text x) = clean_text x := by
  have ht2U : NoU (subM (subU x)) := subM_pres_NoU _ (NoU_subU x)
  have ht2M : NoM (subM (subU x)) := NoM_subM _
  have hx2 : '#' ∉ subM (subU x) := no_hash_subM _ (no_hash_subU _ hx)
  have hclean : clean_text x = collapse (subM (subU x)) := by
    unfold clean_text
    rw [stripHash_eq_self _ hx2]
  rw [hclean]
  show clean_text (collapse (subM (subU x))) = _
  unfold clean_text
  rw [subU_id _ (NoU_collapse _ ht2U), subM_id _ (NoM_collapse _ ht2M),
    stripHash_eq_self _ (no_hash_collapse _ hx2)]
  exact collapse_idem _

/-- C3 amended witness: a concrete `#`-free input. -/
theorem clean_text_idempotent_witness :
    '#' ∉ ("so  good ".toList) ∧
    clean_text (clean_text ("so  good ".toList)) =
      clean_text ("so  good ".toList) :=
  ⟨by decide, clean_text_idempotent_of_no_hash _ (by decide)⟩

end SentimentAnalyzer
